import Mathlib

/-!
Verification development for the `bitset` C library (dynamically resizable
bit vector, bits packed eight-per-byte, LSB-first within a byte).

The byte buffer `unsigned char *data` is modelled as a `List Nat` whose
elements are the byte values; a store through an `unsigned char *` truncates
to 8 bits (`uchar`).  C `unsigned int` arithmetic is 32 bits wide and
`size_t` is 64 bits wide; shifts and complements are modelled with the
matching explicit reductions.  A NULL pointer is modelled as `Option.none`.
Allocation is modelled by an oracle `allocOk : Bool` (whether the allocator
succeeds) together with a `junk : Nat → Nat` stream supplying the contents
of uninitialized memory.
-/

/-- 2^32, the modulus of C `unsigned int` arithmetic. -/
def U32 : Nat := 4294967296

/-- 2^64, the modulus of C `size_t` arithmetic. -/
def SZ : Nat := 18446744073709551616

/-- Truncation performed by every store through an `unsigned char *`. -/
def uchar (x : Nat) : Nat := x % 256

/-- C `~x` on a 32-bit unsigned operand: complement within 32 bits. -/
def not32 (x : Nat) : Nat := 4294967295 ^^^ x

/-- C `x << n` on a 32-bit unsigned operand: the result is reduced mod 2^32.
(`~0 << n` with `~0` of type `int` converts to `unsigned` as `cshl32 4294967295 n`.) -/
def cshl32 (x n : Nat) : Nat := (x <<< n) % U32

/-- The byte read through `data + i`; reads out of range are modelled as 0. -/
def byteAt (data : List Nat) (i : Nat) : Nat := data.getD i 0

/-- Bit `p` of a byte buffer: bit `p % 8` of byte `p / 8` (LSB-first). -/
def getBit (data : List Nat) (p : Nat) : Bool := (byteAt data (p / 8)).testBit (p % 8)

/-- The C statement `data[i] &= m;`. -/
def storeAnd (data : List Nat) (i m : Nat) : List Nat :=
  data.set i (uchar (byteAt data i &&& m))

/-- The C statement `data[i] |= v;`. -/
def storeOr (data : List Nat) (i v : Nat) : List Nat :=
  data.set i (uchar (byteAt data i ||| v))

/-- `memset(data + i, 0, n)`: zero the `n` bytes starting at byte `i`. -/
def memset0 (data : List Nat) (i : Nat) : Nat → List Nat
  | 0 => data
  | n + 1 => memset0 (data.set i 0) (i + 1) n

/-- `bitset_byte_at(set, index)` returns `set->data + index / 8`; the
pointer is modelled as the byte index into the buffer. -/
def bitset_byte_at (index : Nat) : Nat := index / 8

/-- `bitset_set(set, index, state)` acting on the byte buffer:
`*entry ^= (-!!state ^ *entry) & (1 << (index & 0x7));`
(`-!!state` is all-ones when `state` is nonzero, else zero). -/
def bitset_set (data : List Nat) (index state : Nat) : List Nat :=
  let entry := bitset_byte_at index
  let e := byteAt data entry
  data.set entry (uchar (e ^^^ (((if state ≠ 0 then 4294967295 else 0) ^^^ e) &&& (1 <<< (index &&& 7)))))

/-- `bitset_get(set, index)` acting on the byte buffer: returns the masked
byte `*bitset_byte_at(set, index) & (1 << (index & 0x7))` (C returns an
`unsigned int`; nonzero means the bit is set). -/
def bitset_get (data : List Nat) (index : Nat) : Nat :=
  byteAt data (bitset_byte_at index) &&& (1 <<< (index &&& 7))

/-- `bitset_rclear(set, begin, end)` acting on the byte buffer; returns the
new buffer and the returned value `end - begin`.  In the same-byte branch the
C code computes `*begin_ptr &= ~(~(~0 << (end - begin)) << begin);` — note
that the mask is shifted by the full `begin`, not by `begin & 0x7`.
(Shift counts of 32 or more are undefined behaviour in C; the model reduces
the shifted value mod 2^32, and all theorems below stay below that range.) -/
def bitset_rclear (data : List Nat) (begin_ end_ : Nat) : List Nat × Nat :=
  let begin_shift := begin_ &&& 7
  let end_shift := end_ &&& 7
  let begin_ptr := bitset_byte_at begin_
  let end_ptr := bitset_byte_at end_
  if begin_ptr = end_ptr then
    (storeAnd data begin_ptr (not32 (cshl32 (not32 (cshl32 4294967295 (end_ - begin_))) begin_)),
     end_ - begin_)
  else
    let first := begin_ptr + (if begin_shift ≠ 0 then 1 else 0)
    let sz := end_ptr - first
    let data := if sz ≠ 0 then memset0 data first sz else data
    let data := if begin_shift ≠ 0 then storeAnd data begin_ptr (not32 (cshl32 4294967295 begin_shift)) else data
    let data := storeAnd data end_ptr (cshl32 4294967295 end_shift)
    (data, end_ - begin_)

/-- `struct bitset`.  `data = none` models a NULL data pointer. -/
structure bitset where
  data : Option (List Nat)
  capacity : Nat
  size : Nat
deriving DecidableEq

/-- `bitset_internal_bytes(bits) = (((bits) - 1) >> 3) + 1` in `size_t`
arithmetic (the subtraction wraps mod 2^64 when `bits = 0`). -/
def bitset_internal_bytes (bits : Nat) : Nat := (((bits + SZ - 1) % SZ) >>> 3) + 1

/-- `bitset_internal_capacity(bytes) = (bytes) << 3` in `size_t` arithmetic. -/
def bitset_internal_capacity (bytes : Nat) : Nat := (bytes <<< 3) % SZ

/-- `bitset_internal_alloc(clear, num, sizeof(unsigned char))`: `calloc`
zeroes the `num` bytes, `malloc` leaves them uninitialized (modelled by the
`junk` stream). -/
def bitset_internal_alloc (clear : Bool) (num : Nat) (junk : Nat → Nat) : List Nat :=
  if clear then List.replicate num 0 else (List.range num).map fun i => uchar (junk i)

/-- `bitset_new()`: `calloc` zeroes the struct, so `data` is NULL and both
`capacity` and `size` are 0. -/
def bitset_new : bitset := ⟨none, 0, 0⟩

/-- `bitset_malloc(num, clear)`.  `allocOk` models whether allocation
succeeds (the C function returns NULL when either `malloc` of the struct or
the data allocation fails). -/
def bitset_malloc (num : Nat) (clear : Bool) (junk : Nat → Nat) (allocOk : Bool) : Option bitset :=
  let bytes := bitset_internal_bytes num
  if allocOk then
    some { data := some (bitset_internal_alloc clear bytes junk)
           capacity := bitset_internal_capacity bytes
           size := num }
  else none

/-- C `realloc(old, bytes)` on success: the first `min` bytes are preserved,
any grown part is uninitialized (the `junk` stream). -/
def crealloc (old : List Nat) (bytes : Nat) (junk : Nat → Nat) : List Nat :=
  (List.range bytes).map fun i => old.getD i (uchar (junk i))

/-- Conversion of a `size_t` value to `intmax_t` (two's complement wrap, as
gcc implements it). -/
def toInt64 (n : Nat) : Int :=
  if n < 9223372036854775808 then (n : Int) else (n : Int) - (SZ : Int)

/-- `bitset_resize(set, size)`.  The C code assigns
`set->data = realloc(set->data, bytes);` and only then checks for NULL, so
on allocation failure the data pointer has already been overwritten with
NULL (the old buffer is leaked); `size` and `capacity` are not yet updated
and the function returns 0. -/
def bitset_resize (set : bitset) (size : Nat) (junk : Nat → Nat) (allocOk : Bool) : bitset × Int :=
  let diff := toInt64 ((set.size + SZ - size) % SZ)
  let bytes := bitset_internal_bytes size
  let newData := if allocOk then some (crealloc (set.data.getD []) bytes junk) else none
  let set := { set with data := newData }
  match set.data with
  | none => (set, 0)
  | some _ =>
    ({ set with capacity := bitset_internal_capacity bytes, size := size }, diff)

/-- `bitset_cresize(set, size)`: resize, then clear `[old_size, set->size)`
when the requested size exceeds the old size.  (When the resize failed and
`size > old_size`, the C code would call `bitset_rclear` on a NULL data
pointer — undefined behaviour; the model leaves the set untouched on that
unreachable-by-contract path.) -/
def bitset_cresize (set : bitset) (size : Nat) (junk : Nat → Nat) (allocOk : Bool) : bitset × Int :=
  let old_size := set.size
  let r := bitset_resize set size junk allocOk
  if size > old_size then
    match r.1.data with
    | some d => ({ r.1 with data := some (bitset_rclear d old_size r.1.size).1 }, r.2)
    | none => r
  else r

/-- One iteration of the whole-byte copying loop of `bitset_write`:
`*entry &= ~mask; *entry++ |= *seq << shift;` followed, when `shift` is
nonzero, by `*entry &= mask; *entry |= (*seq >> (8 - shift)) & ~mask;`. -/
def writeStep (data : List Nat) (entry s shift mask : Nat) : List Nat :=
  let data := storeAnd data entry (not32 mask)
  let data := storeOr data entry (s <<< shift)
  if shift ≠ 0 then
    let data := storeAnd data (entry + 1) mask
    storeOr data (entry + 1) ((s >>> (8 - shift)) &&& not32 mask)
  else data

/-- The `for (; size >> 3; size -= 8, ++seq)` loop of `bitset_write`;
returns the final `(data, entry, seq, size)`.  The loop condition
`size >> 3 != 0` holds exactly when `size` matches `_ + 8`, and the loop
body ends with `size -= 8`. -/
def bitset_write_loop : List Nat → Nat → List Nat → Nat → Nat → Nat →
    List Nat × Nat × List Nat × Nat
  | data, entry, seq, shift, mask, size + 8 =>
    bitset_write_loop (writeStep data entry (seq.headD 0) shift mask) (entry + 1)
      seq.tail shift mask size
  | data, entry, seq, _, _, size => (data, entry, seq, size)

/-- The trailing partial-byte block `if (size) { ... }` of `bitset_write`. -/
def bitset_write_tail (data : List Nat) (entry s shift mask size : Nat) : List Nat :=
  if size ≠ 0 then
    let end_ := shift + size
    let mask := if end_ < 8 then cshl32 (not32 (cshl32 4294967295 size)) shift else mask
    let data := storeAnd data entry (not32 mask)
    let data := storeOr data entry ((s <<< shift) &&& mask)
    if end_ > 8 then
      let mask := mask >>> (8 - size)
      let data := storeAnd data (entry + 1) mask
      storeOr data (entry + 1) ((s >>> (8 - shift)) &&& not32 mask)
    else data
  else data

/-- `bitset_write(set, index, seq, size)` acting on the byte buffer;
returns the new buffer and the returned count `tmp = size`. -/
def bitset_write (data : List Nat) (index : Nat) (seq : List Nat) (size : Nat) :
    List Nat × Nat :=
  let tmp := size
  let shift := index &&& 7
  let mask := cshl32 4294967295 shift
  let entry := bitset_byte_at index
  let r := bitset_write_loop data entry seq shift mask size
  (bitset_write_tail r.1 r.2.1 (r.2.2.1.headD 0) shift mask r.2.2.2, tmp)

/-- One iteration of the whole-byte copying loop of `bitset_read`:
`*seq |= (*entry++ & mask) >> shift;` followed, when `shift` is nonzero, by
`*seq |= (*entry & ~mask) << (8 - shift);`. -/
def readStep (data : List Nat) (entry : Nat) (seq : List Nat) (si shift mask : Nat) : List Nat :=
  let seq := storeOr seq si ((byteAt data entry &&& mask) >>> shift)
  if shift ≠ 0 then storeOr seq si ((byteAt data (entry + 1) &&& not32 mask) <<< (8 - shift))
  else seq

/-- The `for (; size >> 3; size -= 8, ++seq)` loop of `bitset_read`;
returns the final `(seq, entry, seqpos, size)`.  The loop condition
`size >> 3 != 0` holds exactly when `size` matches `_ + 8`. -/
def bitset_read_loop (data : List Nat) : Nat → List Nat → Nat → Nat → Nat → Nat →
    List Nat × Nat × Nat × Nat
  | entry, seq, si, shift, mask, size + 8 =>
    bitset_read_loop data (entry + 1) (readStep data entry seq si shift mask) (si + 1)
      shift mask size
  | entry, seq, si, _, _, size => (seq, entry, si, size)

/-- The trailing partial-byte block `if (size) { ... }` of `bitset_read`. -/
def bitset_read_tail (data : List Nat) (entry : Nat) (seq : List Nat) (si shift mask size : Nat) :
    List Nat :=
  if size ≠ 0 then
    let end_ := shift + size
    let mask := if end_ < 8 then cshl32 (not32 (cshl32 4294967295 size)) shift else mask
    let seq := storeOr seq si ((byteAt data entry &&& mask) >>> shift)
    if end_ > 8 then
      let mask := mask >>> (8 - size)
      storeOr seq si ((byteAt data (entry + 1) &&& not32 mask) <<< (8 - shift))
    else seq
  else seq

/-- `bitset_read(set, index, seq, size)`: the bitset buffer is `data`, the
external destination buffer is `seq`; returns the new `seq` and the returned
count `tmp = size`. -/
def bitset_read (data : List Nat) (index : Nat) (seq : List Nat) (size : Nat) :
    List Nat × Nat :=
  let tmp := size
  let shift := index &&& 7
  let mask := cshl32 4294967295 shift
  let entry := bitset_byte_at index
  let r := bitset_read_loop data entry seq 0 shift mask size
  (bitset_read_tail data r.2.1 r.1 r.2.2.1 shift mask r.2.2.2, tmp)

/-! ## Basic facts about the byte-buffer primitives -/

theorem byteAt_set_self (data : List Nat) (i v : Nat) (h : i < data.length) :
    byteAt (data.set i v) i = v := by
  simp [byteAt, List.getD_eq_getElem?_getD, List.getElem?_set_self h]

theorem byteAt_set_ne (data : List Nat) (i j v : Nat) (h : i ≠ j) :
    byteAt (data.set i v) j = byteAt data j := by
  simp [byteAt, List.getD_eq_getElem?_getD, List.getElem?_set_ne h]

theorem byteAt_lt (data : List Nat) (hd : ∀ b ∈ data, b < 256) (i : Nat) :
    byteAt data i < 256 := by
  unfold byteAt
  rcases h : data[i]? with _ | b
  · simp [List.getD_eq_getElem?_getD, h]
  · simpa [List.getD_eq_getElem?_getD, h] using hd b (List.getElem?_mem h)

theorem length_storeAnd (data : List Nat) (i m : Nat) :
    (storeAnd data i m).length = data.length := by
  simp [storeAnd]

theorem length_storeOr (data : List Nat) (i v : Nat) :
    (storeOr data i v).length = data.length := by
  simp [storeOr]

theorem bytes_set (data : List Nat) (i v : Nat) (hd : ∀ b ∈ data, b < 256) (hv : v < 256) :
    ∀ b ∈ data.set i v, b < 256 := by
  intro b hb
  rcases List.mem_or_eq_of_mem_set hb with h | rfl
  · exact hd b h
  · exact hv

theorem uchar_lt (x : Nat) : uchar x < 256 := Nat.mod_lt _ (by omega)

theorem bytes_storeAnd (data : List Nat) (i m : Nat) (hd : ∀ b ∈ data, b < 256) :
    ∀ b ∈ storeAnd data i m, b < 256 :=
  bytes_set _ _ _ hd (uchar_lt _)

theorem bytes_storeOr (data : List Nat) (i v : Nat) (hd : ∀ b ∈ data, b < 256) :
    ∀ b ∈ storeOr data i v, b < 256 :=
  bytes_set _ _ _ hd (uchar_lt _)

theorem byteAt_storeAnd_self (data : List Nat) (i m : Nat) (h : i < data.length) :
    byteAt (storeAnd data i m) i = uchar (byteAt data i &&& m) :=
  byteAt_set_self _ _ _ h

theorem byteAt_storeAnd_ne (data : List Nat) (i j m : Nat) (h : i ≠ j) :
    byteAt (storeAnd data i m) j = byteAt data j :=
  byteAt_set_ne _ _ _ _ h

theorem byteAt_storeOr_self (data : List Nat) (i v : Nat) (h : i < data.length) :
    byteAt (storeOr data i v) i = uchar (byteAt data i ||| v) :=
  byteAt_set_self _ _ _ h

theorem byteAt_storeOr_ne (data : List Nat) (i j v : Nat) (h : i ≠ j) :
    byteAt (storeOr data i v) j = byteAt data j :=
  byteAt_set_ne _ _ _ _ h

/-! ## testBit facts for the 32-bit mask arithmetic -/

theorem testBit_uchar (x i : Nat) :
    (uchar x).testBit i = (decide (i < 8) && x.testBit i) := by
  have h : uchar x = x % 2 ^ 8 := by norm_num [uchar]
  rw [h, Nat.testBit_mod_two_pow]

theorem testBit_cshl32 (x n i : Nat) :
    (cshl32 x n).testBit i = (decide (i < 32) && (decide (n ≤ i) && x.testBit (i - n))) := by
  have h : cshl32 x n = (x <<< n) % 2 ^ 32 := by norm_num [cshl32, U32]
  rw [h, Nat.testBit_mod_two_pow, Nat.testBit_shiftLeft]

theorem testBit_maxU32 (i : Nat) : (4294967295 : Nat).testBit i = decide (i < 32) := by
  rw [show (4294967295 : Nat) = 2 ^ 32 - 1 by norm_num, Nat.testBit_two_pow_sub_one]

theorem testBit_not32 (x i : Nat) :
    (not32 x).testBit i = (decide (i < 32) ^^ x.testBit i) := by
  simp [not32, Nat.testBit_xor, testBit_maxU32]

theorem testBit_mask32 (s i : Nat) :
    (cshl32 4294967295 s).testBit i = (decide (s ≤ i) && decide (i < 32)) := by
  rw [testBit_cshl32, testBit_maxU32]
  by_cases h1 : i < 32 <;> by_cases h2 : s ≤ i <;> simp [h1, h2] <;> omega

theorem testBit_not32_mask32 (s i : Nat) (hs : s ≤ 32) :
    (not32 (cshl32 4294967295 s)).testBit i = decide (i < s) := by
  rw [testBit_not32, testBit_mask32]
  by_cases h1 : i < 32 <;> by_cases h2 : s ≤ i <;> simp [h1, h2] <;> omega

theorem and7_eq_mod8 (x : Nat) : x &&& 7 = x % 8 := by
  apply Nat.eq_of_testBit_eq
  intro i
  rw [show (7 : Nat) = 2 ^ 3 - 1 by norm_num, show (8 : Nat) = 2 ^ 3 by norm_num,
    Nat.testBit_and, Nat.testBit_two_pow_sub_one, Nat.testBit_mod_two_pow, Bool.and_comm]

theorem and_two_pow_ne_zero (x k : Nat) : (x &&& 2 ^ k ≠ 0) ↔ x.testBit k := by
  constructor
  · intro h
    by_contra hk
    apply h
    apply Nat.eq_of_testBit_eq
    intro i
    simp only [Nat.testBit_and, Nat.testBit_two_pow, Nat.zero_testBit]
    by_cases hik : k = i
    · subst hik
      simp [Bool.eq_false_iff.mpr hk]
    · simp [hik]
  · intro h hzero
    have h2 := congrArg (Nat.testBit · k) hzero
    simp only [Nat.testBit_and, Nat.testBit_two_pow, Nat.zero_testBit, h] at h2
    simp at h2

/-! ## Single-bit access: `bitset_set` and `bitset_get` -/

theorem getBit_bitset_set (data : List Nat) (index state : Nat)
    (h : index < 8 * data.length) (p : Nat) :
    getBit (bitset_set data index state) p =
      if p = index then decide (state ≠ 0) else getBit data p := by
  have hlen : index / 8 < data.length := by omega
  have hp8 : p % 8 < 8 := Nat.mod_lt _ (by omega)
  unfold getBit bitset_set bitset_byte_at
  simp only [and7_eq_mod8]
  by_cases hpb : p / 8 = index / 8
  · rw [hpb, byteAt_set_self _ _ _ hlen]
    rw [testBit_uchar, Nat.testBit_xor, Nat.testBit_and, Nat.one_shiftLeft, Nat.testBit_two_pow]
    by_cases hpi : p = index
    · subst hpi
      have hp32 : p % 8 < 32 := by omega
      by_cases hs : state = 0 <;> simp [hs, testBit_maxU32, hp8, hp32, Nat.zero_testBit]
    · have hne : index % 8 ≠ p % 8 := by omega
      simp [hne, hpi, hp8]
  · have hne : p ≠ index := fun hh => by subst hh; exact hpb rfl
    rw [byteAt_set_ne _ _ _ _ (fun hh => hpb hh.symm)]
    simp [hne]

theorem length_bitset_set (data : List Nat) (index state : Nat) :
    (bitset_set data index state).length = data.length := by
  simp [bitset_set]

theorem bitset_get_ne_zero (data : List Nat) (index : Nat) :
    (bitset_get data index ≠ 0) ↔ getBit data index := by
  unfold bitset_get getBit bitset_byte_at
  rw [and7_eq_mod8, Nat.one_shiftLeft]
  exact and_two_pow_ne_zero _ _

/-- Claim C8: for `index < capacity`, after `bitset_set(set, index, state)` a
`bitset_get(set, index)` is nonzero exactly when `state` is nonzero, every
bit other than bit `index` is unchanged, and the buffer length is unchanged
(so the full-buffer comparison agrees everywhere except possibly bit
`index`). -/
theorem bitset_set_then_get (data : List Nat) (index state : Nat)
    (h : index < 8 * data.length) :
    ((bitset_get (bitset_set data index state) index ≠ 0) ↔ state ≠ 0) ∧
    (∀ p, p ≠ index → getBit (bitset_set data index state) p = getBit data p) ∧
    (bitset_set data index state).length = data.length := by
  refine ⟨?_, ?_, length_bitset_set data index state⟩
  · rw [bitset_get_ne_zero, getBit_bitset_set data index state h index]
    simp
  · intro p hp
    rw [getBit_bitset_set data index state h p]
    simp [hp]

/-- Witness for `bitset_set_then_get` at a concrete input. -/
theorem bitset_set_then_get_witness :
    (11 < 8 * ([5, 9] : List Nat).length) ∧
    ((bitset_get (bitset_set [5, 9] 11 1) 11 ≠ 0) ↔ (1 : Nat) ≠ 0) ∧
    getBit (bitset_set [5, 9] 11 1) 3 = getBit [5, 9] 3 := by
  have h := bitset_set_then_get [5, 9] 11 1 (by decide)
  exact ⟨by decide, h.1, h.2.1 3 (by decide)⟩

/-! ## Sizing arithmetic: `bitset_internal_bytes` / `bitset_internal_capacity` -/

theorem bitset_internal_bytes_eq (s : Nat) (h1 : 1 ≤ s) (h2 : s < SZ) :
    bitset_internal_bytes s = (s + 7) / 8 := by
  unfold bitset_internal_bytes
  rw [Nat.shiftRight_eq_div_pow]
  simp only [SZ] at *
  norm_num
  omega

theorem bitset_internal_capacity_eq (b : Nat) (h : 8 * b < SZ) :
    bitset_internal_capacity b = 8 * b := by
  unfold bitset_internal_capacity
  rw [Nat.shiftLeft_eq]
  simp only [SZ] at *
  norm_num
  omega

theorem length_crealloc (old : List Nat) (bytes : Nat) (junk : Nat → Nat) :
    (crealloc old bytes junk).length = bytes := by
  simp [crealloc]

theorem length_bitset_internal_alloc (clear : Bool) (num : Nat) (junk : Nat → Nat) :
    (bitset_internal_alloc clear num junk).length = num := by
  unfold bitset_internal_alloc
  cases clear <;> simp

theorem length_memset0 (n : Nat) : ∀ (data : List Nat) (i : Nat),
    (memset0 data i n).length = data.length := by
  induction n with
  | zero => intro data i; rfl
  | succ n ih => intro data i; rw [memset0, ih]; simp

theorem length_bitset_rclear (data : List Nat) (begin_ end_ : Nat) :
    (bitset_rclear data begin_ end_).1.length = data.length := by
  simp only [bitset_rclear]
  split <;> simp [apply_ite List.length, length_storeAnd, length_memset0, storeAnd]

/-- Claim C9 (amended): after construction by `bitset_new` or
`bitset_malloc`, and immediately after every successful `bitset_resize` or
`bitset_cresize`, with the new bit count in `[1, 2^64 - 8]`, the invariant
`capacity = 8 * ceil(size / 8)` holds and the backing buffer holds exactly
`ceil(size / 8)` bytes (`bitset_new` allocates no buffer at all and has
`capacity = size = 0`).  At size 0 the invariant fails: `bitset_internal_bytes`
wraps, the buffer gets 2^61 bytes and `capacity` wraps to 0. -/
theorem capacity_size_invariant (set : bitset) (size : Nat) (junk : Nat → Nat)
    (h1 : 1 ≤ size) (h2 : size ≤ SZ - 8) :
    (bitset_new.capacity = 8 * ((bitset_new.size + 7) / 8) ∧ bitset_new.data = none) ∧
    (∀ num clear, 1 ≤ num → num ≤ SZ - 8 → ∀ s, bitset_malloc num clear junk true = some s →
      s.capacity = 8 * ((s.size + 7) / 8) ∧ (s.data.getD []).length = (s.size + 7) / 8) ∧
    ((bitset_resize set size junk true).1.capacity =
        8 * (((bitset_resize set size junk true).1.size + 7) / 8) ∧
      ((bitset_resize set size junk true).1.data.getD []).length =
        ((bitset_resize set size junk true).1.size + 7) / 8) ∧
    ((bitset_cresize set size junk true).1.capacity =
        8 * (((bitset_cresize set size junk true).1.size + 7) / 8) ∧
      ((bitset_cresize set size junk true).1.data.getD []).length =
        ((bitset_cresize set size junk true).1.size + 7) / 8) := by
  have hSZ : (8 : Nat) * ((size + 7) / 8) < SZ := by simp only [SZ] at *; omega
  have hresize :
      bitset_resize set size junk true =
        ({ data := some (crealloc (set.data.getD []) (bitset_internal_bytes size) junk)
           capacity := bitset_internal_capacity (bitset_internal_bytes size)
           size := size },
         toInt64 ((set.size + SZ - size) % SZ)) := by
    simp [bitset_resize]
  refine ⟨⟨rfl, rfl⟩, ?_, ?_, ?_⟩
  · intro num clear hn1 hn2 s hs
    have hb : bitset_internal_bytes num = (num + 7) / 8 :=
      bitset_internal_bytes_eq num hn1 (by simp only [SZ] at *; omega)
    have hcapn : (8 : Nat) * ((num + 7) / 8) < SZ := by simp only [SZ] at *; omega
    simp only [bitset_malloc, if_pos, Option.some.injEq] at hs
    subst hs
    simp [hb, bitset_internal_capacity_eq _ hcapn, length_bitset_internal_alloc]
  · rw [hresize]
    simp [bitset_internal_bytes_eq size h1 (by simp only [SZ] at *; omega),
      bitset_internal_capacity_eq _ hSZ, length_crealloc]
  · rw [bitset_cresize, hresize]
    by_cases hgt : size > set.size
    · simp only [hgt, if_pos]
      simp [bitset_internal_bytes_eq size h1 (by simp only [SZ] at *; omega),
        bitset_internal_capacity_eq _ hSZ, length_bitset_rclear, length_crealloc]
    · simp only [hgt, if_neg]
      simp [bitset_internal_bytes_eq size h1 (by simp only [SZ] at *; omega),
        bitset_internal_capacity_eq _ hSZ, length_crealloc]

/-- Witness for `capacity_size_invariant` at a concrete input. -/
theorem capacity_size_invariant_witness :
    (1 ≤ 13 ∧ 13 ≤ SZ - 8) ∧
    (bitset_resize ⟨some [255, 255], 16, 10⟩ 13 (fun _ => 0) true).1.capacity =
      8 * (((bitset_resize ⟨some [255, 255], 16, 10⟩ 13 (fun _ => 0) true).1.size + 7) / 8) := by
  refine ⟨⟨by norm_num, by norm_num [SZ]⟩, ?_⟩
  exact (capacity_size_invariant ⟨some [255, 255], 16, 10⟩ 13 (fun _ => 0) (by norm_num)
    (by norm_num [SZ])).2.2.1.1

/-! ## The bulk-write path: `bitset_write` -/

theorem testBit_write_low_byte (e s shift i : Nat) (hshift : shift < 8) :
    (uchar (uchar (e &&& not32 (cshl32 4294967295 shift)) ||| (s <<< shift))).testBit i =
      (decide (i < 8) && if i < shift then e.testBit i else s.testBit (i - shift)) := by
  simp only [testBit_uchar, Nat.testBit_or, Nat.testBit_and, Nat.testBit_shiftLeft,
    testBit_not32_mask32 shift i (by omega)]
  by_cases h1 : i < 8
  · by_cases h2 : i < shift
    · have h3 : ¬shift ≤ i := by omega
      simp [h1, h2, h3]
    · have h3 : shift ≤ i := by omega
      simp [h1, h2, h3]
  · simp [h1]

theorem testBit_write_high_byte (e s shift i : Nat) (hshift : shift < 8) :
    (uchar (uchar (e &&& cshl32 4294967295 shift) |||
        ((s >>> (8 - shift)) &&& not32 (cshl32 4294967295 shift)))).testBit i =
      (decide (i < 8) && if i < shift then s.testBit (8 - shift + i) else e.testBit i) := by
  simp only [testBit_uchar, Nat.testBit_or, Nat.testBit_and, Nat.testBit_shiftRight,
    testBit_mask32, testBit_not32_mask32 shift i (by omega)]
  by_cases h1 : i < 8
  · by_cases h2 : i < shift
    · have h3 : ¬shift ≤ i := by omega
      simp [h1, h2, h3]
    · have h3 : shift ≤ i := by omega
      have h4 : i < 32 := by omega
      simp [h1, h2, h3, h4]
  · simp [h1]

theorem length_writeStep (data : List Nat) (entry s shift mask : Nat) :
    (writeStep data entry s shift mask).length = data.length := by
  simp only [writeStep]
  split <;> simp [length_storeOr, length_storeAnd, storeOr, storeAnd]

theorem bytes_writeStep (data : List Nat) (entry s shift mask : Nat)
    (hd : ∀ b ∈ data, b < 256) : ∀ b ∈ writeStep data entry s shift mask, b < 256 := by
  simp only [writeStep]
  split
  · exact bytes_storeOr _ _ _ (bytes_storeAnd _ _ _ (bytes_storeOr _ _ _ (bytes_storeAnd _ _ _ hd)))
  · exact bytes_storeOr _ _ _ (bytes_storeAnd _ _ _ hd)

theorem getBit_writeStep (data : List Nat) (entry s shift : Nat)
    (hshift : shift < 8) (hcap : 8 * entry + shift + 8 ≤ 8 * data.length) (p : Nat) :
    getBit (writeStep data entry s shift (cshl32 4294967295 shift)) p =
      if 8 * entry + shift ≤ p ∧ p < 8 * entry + shift + 8 then
        s.testBit (p - (8 * entry + shift))
      else getBit data p := by
  have hentry : entry < data.length := by omega
  have hp8 : p % 8 < 8 := Nat.mod_lt _ (by omega)
  have hpdiv : p = 8 * (p / 8) + p % 8 := by omega
  simp only [writeStep, getBit]
  by_cases hsh : shift = 0
  · subst hsh
    simp only [ne_eq, not_true_eq_false, if_neg, reduceIte]
    by_cases hj : p / 8 = entry
    · rw [hj, byteAt_storeOr_self _ _ _ (by simpa [storeAnd] using hentry),
        byteAt_storeAnd_self _ _ _ hentry]
      rw [testBit_write_low_byte _ _ _ _ (by omega)]
      have hin : 8 * entry + 0 ≤ p ∧ p < 8 * entry + 0 + 8 := by omega
      have h5 : decide (p % 8 < 8) = true := by simp only [decide_eq_true_eq]; exact hp8
      rw [if_pos hin, if_neg (by omega : ¬p % 8 < 0), h5, Bool.true_and]
      congr 1
      omega
    · rw [byteAt_storeOr_ne _ _ _ _ (fun hh => hj hh.symm),
        byteAt_storeAnd_ne _ _ _ _ (fun hh => hj hh.symm)]
      have hout : ¬(8 * entry ≤ p ∧ p < 8 * entry + 8) := by omega
      simp [hout]
  · simp only [hsh, ne_eq, not_false_eq_true, if_pos, reduceIte]
    have hentry1 : entry + 1 < data.length := by omega
    by_cases hj : p / 8 = entry
    · have hne : entry + 1 ≠ p / 8 := by omega
      rw [byteAt_storeOr_ne _ _ _ _ hne, byteAt_storeAnd_ne _ _ _ _ hne, hj,
        byteAt_storeOr_self _ _ _ (by simpa [storeAnd] using hentry),
        byteAt_storeAnd_self _ _ _ hentry]
      rw [testBit_write_low_byte _ _ _ _ hshift]
      by_cases hi : p % 8 < shift
      · have hout : ¬(8 * entry + shift ≤ p ∧ p < 8 * entry + shift + 8) := by omega
        simp [hi, hout, hp8]
      · have hin : 8 * entry + shift ≤ p ∧ p < 8 * entry + shift + 8 := by omega
        have h5 : decide (p % 8 < 8) = true := by simp only [decide_eq_true_eq]; exact hp8
        rw [if_pos hin, if_neg hi, h5, Bool.true_and]
        congr 1
        omega
    · by_cases hj1 : p / 8 = entry + 1
      · rw [hj1, byteAt_storeOr_self _ _ _ (by
            simpa [storeAnd, length_storeOr, length_storeAnd, storeOr] using hentry1),
          byteAt_storeAnd_self _ _ _ (by
            simpa [length_storeOr, length_storeAnd, storeOr, storeAnd] using hentry1)]
        rw [byteAt_storeOr_ne _ _ _ _ (by omega : entry ≠ entry + 1),
          byteAt_storeAnd_ne _ _ _ _ (by omega : entry ≠ entry + 1)]
        rw [testBit_write_high_byte _ _ _ _ hshift]
        by_cases hi : p % 8 < shift
        · have hin : 8 * entry + shift ≤ p ∧ p < 8 * entry + shift + 8 := by omega
          have h5 : decide (p % 8 < 8) = true := by simp only [decide_eq_true_eq]; exact hp8
          rw [if_pos hin, if_pos hi, h5, Bool.true_and]
          congr 1
          omega
        · have hout : ¬(8 * entry + shift ≤ p ∧ p < 8 * entry + shift + 8) := by omega
          simp [hi, hout, hp8]
      · rw [byteAt_storeOr_ne _ _ _ _ (fun hh => hj1 hh.symm),
          byteAt_storeAnd_ne _ _ _ _ (fun hh => hj1 hh.symm),
          byteAt_storeOr_ne _ _ _ _ (fun hh => hj hh.symm),
          byteAt_storeAnd_ne _ _ _ _ (fun hh => hj hh.symm)]
        have hout : ¬(8 * entry + shift ≤ p ∧ p < 8 * entry + shift + 8) := by omega
        simp [hout]

theorem byteAt_tail (seq : List Nat) (j : Nat) : byteAt seq.tail j = byteAt seq (j + 1) := by
  cases seq <;> simp [byteAt]

theorem getBit_tail (seq : List Nat) (q : Nat) : getBit seq.tail q = getBit seq (q + 8) := by
  unfold getBit
  rw [byteAt_tail, show (q + 8) / 8 = q / 8 + 1 by omega, show (q + 8) % 8 = q % 8 by omega]

theorem headD_eq_byteAt (seq : List Nat) : seq.headD 0 = byteAt seq 0 := by
  cases seq <;> simp [byteAt]

theorem bitset_write_loop_step (data : List Nat) (entry : Nat) (seq : List Nat)
    (shift mask k : Nat) :
    bitset_write_loop data entry seq shift mask (k + 8) =
      bitset_write_loop (writeStep data entry (seq.headD 0) shift mask) (entry + 1)
        seq.tail shift mask k := rfl

theorem bitset_write_loop_base (data : List Nat) (entry : Nat) (seq : List Nat)
    (shift mask size : Nat) (h : size < 8) :
    bitset_write_loop data entry seq shift mask size = (data, entry, seq, size) := by
  interval_cases size <;> rfl

theorem bitset_write_loop_spec (size : Nat) :
    ∀ (data : List Nat) (entry : Nat) (seq : List Nat) (shift : Nat),
      shift < 8 →
      8 * entry + shift + size ≤ 8 * data.length →
      (bitset_write_loop data entry seq shift (cshl32 4294967295 shift) size).1.length = data.length ∧
      (bitset_write_loop data entry seq shift (cshl32 4294967295 shift) size).2.1 = entry + size / 8 ∧
      (bitset_write_loop data entry seq shift (cshl32 4294967295 shift) size).2.2.1 =
        List.drop (size / 8) seq ∧
      (bitset_write_loop data entry seq shift (cshl32 4294967295 shift) size).2.2.2 = size % 8 ∧
      ∀ p, getBit (bitset_write_loop data entry seq shift (cshl32 4294967295 shift) size).1 p =
        if 8 * entry + shift ≤ p ∧ p < 8 * entry + shift + 8 * (size / 8) then
          getBit seq (p - (8 * entry + shift))
        else getBit data p := by
  induction size using Nat.strong_induction_on with
  | _ size ih =>
    intro data entry seq shift hshift hcap
    by_cases hge : 8 ≤ size
    · obtain ⟨k, rfl⟩ : ∃ k, size = k + 8 := ⟨size - 8, by omega⟩
      rw [bitset_write_loop_step]
      have hlen' :
          (writeStep data entry (seq.headD 0) shift (cshl32 4294967295 shift)).length =
            data.length := length_writeStep _ _ _ _ _
      have hcap' : 8 * (entry + 1) + shift + k ≤
          8 * (writeStep data entry (seq.headD 0) shift (cshl32 4294967295 shift)).length := by
        rw [hlen']; omega
      obtain ⟨ih1, ih2, ih3, ih4, ih5⟩ := ih k (by omega) _ (entry + 1) seq.tail shift hshift hcap'
      refine ⟨by rw [ih1, hlen'], by rw [ih2]; omega, ?_, by rw [ih4]; omega, ?_⟩
      · rw [ih3, ← List.drop_one, List.drop_drop,
          show 1 + k / 8 = (k + 8) / 8 by omega]
      · intro p
        rw [ih5 p, getBit_writeStep data entry (seq.headD 0) shift hshift (by omega) p]
        by_cases hc1 : 8 * (entry + 1) + shift ≤ p ∧ p < 8 * (entry + 1) + shift + 8 * (k / 8)
        · rw [if_pos hc1, if_pos (show 8 * entry + shift ≤ p ∧
              p < 8 * entry + shift + 8 * ((k + 8) / 8) by omega), getBit_tail,
            show p - (8 * (entry + 1) + shift) + 8 = p - (8 * entry + shift) by omega]
        · rw [if_neg hc1]
          by_cases hc2 : 8 * entry + shift ≤ p ∧ p < 8 * entry + shift + 8
          · rw [if_pos hc2, if_pos (show 8 * entry + shift ≤ p ∧
                p < 8 * entry + shift + 8 * ((k + 8) / 8) by omega), headD_eq_byteAt]
            unfold getBit
            rw [show (p - (8 * entry + shift)) / 8 = 0 by omega,
              show (p - (8 * entry + shift)) % 8 = p - (8 * entry + shift) by omega]
          · rw [if_neg hc2, if_neg (show ¬(8 * entry + shift ≤ p ∧
                p < 8 * entry + shift + 8 * ((k + 8) / 8)) by omega)]
    · rw [bitset_write_loop_base _ _ _ _ _ _ (by omega)]
      refine ⟨rfl, by simp; omega, ?_, by simp; omega, ?_⟩
      · rw [show size / 8 = 0 by omega, List.drop_zero]
      · intro p
        rw [if_neg (by omega)]

theorem not32_mask32_eq (n : Nat) (hn : n ≤ 32) : not32 (cshl32 4294967295 n) = 2 ^ n - 1 := by
  apply Nat.eq_of_testBit_eq
  intro i
  rw [testBit_not32_mask32 n i hn, Nat.testBit_two_pow_sub_one]

theorem testBit_rangeMask (size shift j : Nat) (hs : size ≤ 32) :
    (cshl32 (not32 (cshl32 4294967295 size)) shift).testBit j =
      (decide (j < 32) && (decide (shift ≤ j) && decide (j - shift < size))) := by
  rw [testBit_cshl32, not32_mask32_eq size hs, Nat.testBit_two_pow_sub_one]

theorem testBit_tail_store_byte (e s shift M size i : Nat)
    (hM : ∀ j, j < 8 → M.testBit j = (decide (shift ≤ j) && decide (j < shift + size))) :
    (uchar (uchar (e &&& not32 M) ||| ((s <<< shift) &&& M))).testBit i =
      (decide (i < 8) &&
        if shift ≤ i ∧ i < shift + size then s.testBit (i - shift) else e.testBit i) := by
  simp only [testBit_uchar, Nat.testBit_or, Nat.testBit_and, Nat.testBit_shiftLeft, testBit_not32]
  by_cases h1 : i < 8
  · rw [hM i h1]
    have h32 : i < 32 := by omega
    by_cases h2 : shift ≤ i
    · by_cases h3 : i < shift + size
      · simp [h1, h2, h3, h32]
      · simp [h1, h2, h3, h32]
    · have h4 : ¬(shift ≤ i ∧ i < shift + size) := by omega
      simp [h1, h2, h4, h32]
  · simp [h1]

theorem testBit_tail_high_store_byte (e s shift M2 lim i : Nat)
    (hM : ∀ j, j < 8 → M2.testBit j = decide (lim ≤ j)) :
    (uchar (uchar (e &&& M2) ||| ((s >>> (8 - shift)) &&& not32 M2))).testBit i =
      (decide (i < 8) && if i < lim then s.testBit (8 - shift + i) else e.testBit i) := by
  simp only [testBit_uchar, Nat.testBit_or, Nat.testBit_and, Nat.testBit_shiftRight, testBit_not32]
  by_cases h1 : i < 8
  · rw [hM i h1]
    have h32 : i < 32 := by omega
    by_cases h2 : i < lim
    · have h3 : ¬lim ≤ i := by omega
      simp [h1, h2, h3, h32]
    · have h3 : lim ≤ i := by omega
      simp [h1, h2, h3, h32]
  · simp [h1]

theorem length_bitset_write_tail (data : List Nat) (entry s shift mask size : Nat) :
    (bitset_write_tail data entry s shift mask size).length = data.length := by
  simp only [bitset_write_tail]
  split
  · split <;> simp [length_storeOr, length_storeAnd, storeOr, storeAnd]
  · rfl

theorem bytes_bitset_write_tail (data : List Nat) (entry s shift mask size : Nat)
    (hd : ∀ b ∈ data, b < 256) :
    ∀ b ∈ bitset_write_tail data entry s shift mask size, b < 256 := by
  simp only [bitset_write_tail]
  split
  · split
    · exact bytes_storeOr _ _ _
        (bytes_storeAnd _ _ _ (bytes_storeOr _ _ _ (bytes_storeAnd _ _ _ hd)))
    · exact bytes_storeOr _ _ _ (bytes_storeAnd _ _ _ hd)
  · exact hd

theorem getBit_bitset_write_tail (data : List Nat) (entry s shift size : Nat)
    (hshift : shift < 8) (hsize : size < 8)
    (hcap : 8 * entry + shift + size ≤ 8 * data.length) (p : Nat) :
    getBit (bitset_write_tail data entry s shift (cshl32 4294967295 shift) size) p =
      if 8 * entry + shift ≤ p ∧ p < 8 * entry + shift + size then
        s.testBit (p - (8 * entry + shift))
      else getBit data p := by
  have hp8 : p % 8 < 8 := Nat.mod_lt _ (by omega)
  have h5 : decide (p % 8 < 8) = true := by simp only [decide_eq_true_eq]; exact hp8
  unfold bitset_write_tail
  by_cases hz : size = 0
  · subst hz
    rw [if_neg (by simp), if_neg (by omega)]
  · have hentry : entry < data.length := by omega
    rw [if_pos hz]
    simp only []
    by_cases hgt : shift + size > 8
    · -- the range spills into a second byte; the loop mask is kept and
      -- then shifted right by `8 - size` for the second byte
      rw [if_neg (by omega : ¬shift + size < 8), if_pos hgt]
      have hentry1 : entry + 1 < data.length := by omega
      have hM : ∀ j, j < 8 → (cshl32 4294967295 shift).testBit j =
          (decide (shift ≤ j) && decide (j < shift + size)) := by
        intro j hj
        rw [testBit_mask32]
        have a1 : j < 32 := by omega
        have a2 : j < shift + size := by omega
        simp [a1, a2]
      have hM2 : ∀ j, j < 8 → ((cshl32 4294967295 shift) >>> (8 - size)).testBit j =
          decide (shift + size - 8 ≤ j) := by
        intro j hj
        rw [Nat.testBit_shiftRight, testBit_mask32]
        have b1 : 8 - size + j < 32 := by omega
        have b2 : (shift ≤ 8 - size + j) ↔ (shift + size - 8 ≤ j) := by omega
        simp [b1, b2]
      unfold getBit
      by_cases hj : p / 8 = entry
      · have hne : entry + 1 ≠ p / 8 := by omega
        rw [byteAt_storeOr_ne _ _ _ _ hne, byteAt_storeAnd_ne _ _ _ _ hne, hj,
          byteAt_storeOr_self _ _ _ (by simpa [storeAnd] using hentry),
          byteAt_storeAnd_self _ _ _ hentry]
        rw [testBit_tail_store_byte _ _ _ _ size _ hM, h5, Bool.true_and]
        by_cases hc : shift ≤ p % 8 ∧ p % 8 < shift + size
        · rw [if_pos hc, if_pos (by omega : 8 * entry + shift ≤ p ∧
            p < 8 * entry + shift + size)]
          congr 1
          omega
        · rw [if_neg hc, if_neg (by omega : ¬(8 * entry + shift ≤ p ∧
            p < 8 * entry + shift + size))]
      · by_cases hj1 : p / 8 = entry + 1
        · rw [hj1, byteAt_storeOr_self _ _ _ (by
              simpa [storeAnd, storeOr] using hentry1),
            byteAt_storeAnd_self _ _ _ (by simpa [storeAnd, storeOr] using hentry1),
            byteAt_storeOr_ne _ _ _ _ (by omega : entry ≠ entry + 1),
            byteAt_storeAnd_ne _ _ _ _ (by omega : entry ≠ entry + 1)]
          rw [testBit_tail_high_store_byte _ _ _ _ (shift + size - 8) _ hM2, h5, Bool.true_and]
          by_cases hc : p % 8 < shift + size - 8
          · rw [if_pos hc, if_pos (by omega : 8 * entry + shift ≤ p ∧
              p < 8 * entry + shift + size)]
            congr 1
            omega
          · rw [if_neg hc, if_neg (by omega : ¬(8 * entry + shift ≤ p ∧
              p < 8 * entry + shift + size))]
        · rw [byteAt_storeOr_ne _ _ _ _ (fun hh => hj1 hh.symm),
            byteAt_storeAnd_ne _ _ _ _ (fun hh => hj1 hh.symm),
            byteAt_storeOr_ne _ _ _ _ (fun hh => hj hh.symm),
            byteAt_storeAnd_ne _ _ _ _ (fun hh => hj hh.symm),
            if_neg (by omega : ¬(8 * entry + shift ≤ p ∧ p < 8 * entry + shift + size))]
    · -- the whole remainder fits into the current byte
      rw [if_neg hgt]
      have hM : ∀ j, j < 8 →
          ((if shift + size < 8 then cshl32 (not32 (cshl32 4294967295 size)) shift
            else cshl32 4294967295 shift)).testBit j =
          (decide (shift ≤ j) && decide (j < shift + size)) := by
        intro j hj
        have c1 : j < 32 := by omega
        by_cases hlt : shift + size < 8
        · rw [if_pos hlt, testBit_rangeMask _ _ _ (by omega)]
          by_cases h2 : shift ≤ j
          · have c2 : (j - shift < size) ↔ (j < shift + size) := by omega
            simp [c1, h2, c2]
          · simp [c1, h2]
        · rw [if_neg hlt, testBit_mask32]
          have d2 : j < shift + size := by omega
          simp [c1, d2]
      unfold getBit
      by_cases hj : p / 8 = entry
      · rw [hj, byteAt_storeOr_self _ _ _ (by simpa [storeAnd] using hentry),
          byteAt_storeAnd_self _ _ _ hentry]
        rw [testBit_tail_store_byte _ _ _ _ size _ hM, h5, Bool.true_and]
        by_cases hc : shift ≤ p % 8 ∧ p % 8 < shift + size
        · rw [if_pos hc, if_pos (by omega : 8 * entry + shift ≤ p ∧
            p < 8 * entry + shift + size)]
          congr 1
          omega
        · rw [if_neg hc, if_neg (by omega : ¬(8 * entry + shift ≤ p ∧
            p < 8 * entry + shift + size))]
      · rw [byteAt_storeOr_ne _ _ _ _ (fun hh => hj hh.symm),
          byteAt_storeAnd_ne _ _ _ _ (fun hh => hj hh.symm),
          if_neg (by omega : ¬(8 * entry + shift ≤ p ∧ p < 8 * entry + shift + size))]

theorem byteAt_drop (seq : List Nat) (n j : Nat) : byteAt (seq.drop n) j = byteAt seq (n + j) := by
  simp [byteAt, List.getD_eq_getElem?_getD, List.getElem?_drop]

theorem length_bitset_write_loop_any (size : Nat) :
    ∀ (data : List Nat) (entry : Nat) (seq : List Nat) (shift mask : Nat),
      (bitset_write_loop data entry seq shift mask size).1.length = data.length := by
  induction size using Nat.strong_induction_on with
  | _ size ih =>
    intro data entry seq shift mask
    by_cases hge : 8 ≤ size
    · obtain ⟨k, rfl⟩ : ∃ k, size = k + 8 := ⟨size - 8, by omega⟩
      rw [bitset_write_loop_step, ih k (by omega), length_writeStep]
    · rw [bitset_write_loop_base _ _ _ _ _ _ (by omega)]

theorem bytes_bitset_write_loop_any (size : Nat) :
    ∀ (data : List Nat) (entry : Nat) (seq : List Nat) (shift mask : Nat),
      (∀ b ∈ data, b < 256) →
      ∀ b ∈ (bitset_write_loop data entry seq shift mask size).1, b < 256 := by
  induction size using Nat.strong_induction_on with
  | _ size ih =>
    intro data entry seq shift mask hd
    by_cases hge : 8 ≤ size
    · obtain ⟨k, rfl⟩ : ∃ k, size = k + 8 := ⟨size - 8, by omega⟩
      rw [bitset_write_loop_step]
      exact ih k (by omega) _ _ _ _ _ (bytes_writeStep _ _ _ _ _ hd)
    · rw [bitset_write_loop_base _ _ _ _ _ _ (by omega)]
      exact hd

theorem length_bitset_write (data : List Nat) (index : Nat) (seq : List Nat) (size : Nat) :
    (bitset_write data index seq size).1.length = data.length := by
  unfold bitset_write
  rw [length_bitset_write_tail, length_bitset_write_loop_any]

theorem bytes_bitset_write (data : List Nat) (index : Nat) (seq : List Nat) (size : Nat)
    (hd : ∀ b ∈ data, b < 256) :
    ∀ b ∈ (bitset_write data index seq size).1, b < 256 := by
  unfold bitset_write
  exact bytes_bitset_write_tail _ _ _ _ _ _ (bytes_bitset_write_loop_any _ _ _ _ _ _ hd)

theorem bitset_write_snd (data : List Nat) (index : Nat) (seq : List Nat) (size : Nat) :
    (bitset_write data index seq size).2 = size := rfl

/-- Bit-level characterisation of `bitset_write`: bit `p` of the buffer after
`bitset_write(set, index, seq, count)` is bit `p - index` of the external
sequence when `p` lies in `[index, index + count)`, and is unchanged
otherwise. -/
theorem getBit_bitset_write (data : List Nat) (index : Nat) (seq : List Nat) (count : Nat)
    (hcap : index + count ≤ 8 * data.length) (p : Nat) :
    getBit (bitset_write data index seq count).1 p =
      if index ≤ p ∧ p < index + count then getBit seq (p - index) else getBit data p := by
  have hshift : index % 8 < 8 := Nat.mod_lt _ (by omega)
  unfold bitset_write bitset_byte_at
  simp only [and7_eq_mod8]
  obtain ⟨l1, l2, l3, l4, l5⟩ :=
    bitset_write_loop_spec count data (index / 8) seq (index % 8) hshift (by omega)
  rw [l2, l3, l4]
  rw [getBit_bitset_write_tail _ _ _ _ _ hshift (by omega) (by rw [l1]; omega) p, l5 p,
    headD_eq_byteAt, byteAt_drop]
  by_cases hT : index + 8 * (count / 8) ≤ p ∧ p < index + count
  · rw [if_pos (show 8 * (index / 8 + count / 8) + index % 8 ≤ p ∧
        p < 8 * (index / 8 + count / 8) + index % 8 + count % 8 by omega),
      if_pos (show index ≤ p ∧ p < index + count by omega)]
    unfold getBit
    rw [show count / 8 + 0 = (p - index) / 8 by omega,
      show p - (8 * (index / 8 + count / 8) + index % 8) = (p - index) % 8 by omega]
  · by_cases hL : index ≤ p ∧ p < index + 8 * (count / 8)
    · rw [if_neg (show ¬(8 * (index / 8 + count / 8) + index % 8 ≤ p ∧
          p < 8 * (index / 8 + count / 8) + index % 8 + count % 8) by omega),
        if_pos (show 8 * (index / 8) + index % 8 ≤ p ∧
          p < 8 * (index / 8) + index % 8 + 8 * (count / 8) by omega),
        if_pos (show index ≤ p ∧ p < index + count by omega),
        show 8 * (index / 8) + index % 8 = index by omega]
    · rw [if_neg (show ¬(8 * (index / 8 + count / 8) + index % 8 ≤ p ∧
          p < 8 * (index / 8 + count / 8) + index % 8 + count % 8) by omega),
        if_neg (show ¬(8 * (index / 8) + index % 8 ≤ p ∧
          p < 8 * (index / 8) + index % 8 + 8 * (count / 8)) by omega),
        if_neg (show ¬(index ≤ p ∧ p < index + count) by omega)]

/-! ## The bulk-read path: `bitset_read` -/

theorem testBit_byte_high (e j : Nat) (he : e < 256) (hj : 8 ≤ j) : e.testBit j = false := by
  apply Nat.testBit_lt_two_pow
  calc e < 256 := he
    _ = 2 ^ 8 := by norm_num
    _ ≤ 2 ^ j := Nat.pow_le_pow_right (by norm_num) hj

theorem testBit_read_store_byte0 (q e0 i : Nat) :
    (uchar (q ||| ((e0 &&& cshl32 4294967295 0) >>> 0))).testBit i =
      (decide (i < 8) && (q.testBit i || e0.testBit i)) := by
  simp only [testBit_uchar, Nat.testBit_or, Nat.testBit_and, Nat.testBit_shiftRight,
    testBit_mask32]
  by_cases h1 : i < 8
  · have h2 : i < 32 := by omega
    simp [h1, h2]
  · simp [h1]

theorem testBit_read_store_byte (q e0 e1 shift i : Nat) (hshift : shift < 8)
    (he0 : e0 < 256) :
    (uchar (uchar (q ||| ((e0 &&& cshl32 4294967295 shift) >>> shift)) |||
        ((e1 &&& not32 (cshl32 4294967295 shift)) <<< (8 - shift)))).testBit i =
      (decide (i < 8) && (q.testBit i ||
        if shift + i < 8 then e0.testBit (shift + i) else e1.testBit (shift + i - 8))) := by
  have hnm : ∀ j, (not32 (cshl32 4294967295 shift)).testBit j = decide (j < shift) :=
    fun j => testBit_not32_mask32 shift j (by omega)
  simp only [testBit_uchar, Nat.testBit_or, Nat.testBit_and, Nat.testBit_shiftRight,
    Nat.testBit_shiftLeft, testBit_mask32, hnm]
  by_cases h1 : i < 8
  · by_cases h2 : shift + i < 8
    · have h3 : ¬8 - shift ≤ i := by omega
      have h4 : shift + i < 32 := by omega
      have h8 : shift ≤ shift + i := by omega
      simp [h1, h2, h3, h4, h8]
    · have h3 : 8 - shift ≤ i := by omega
      have h4 : shift + i < 32 := by omega
      have h5 : e0.testBit (shift + i) = false := testBit_byte_high _ _ he0 (by omega)
      have h6 : i - (8 - shift) = shift + i - 8 := by omega
      have h7 : i - (8 - shift) < shift := by omega
      have h8 : shift ≤ shift + i := by omega
      have h9 : shift + i - 8 < shift := by omega
      simp [h1, h2, h3, h4, h5, h6, h7, h8, h9]
  · simp [h1]

theorem length_readStep (data : List Nat) (entry : Nat) (seq : List Nat) (si shift mask : Nat) :
    (readStep data entry seq si shift mask).length = seq.length := by
  simp only [readStep]
  split <;> simp [length_storeOr, storeOr]

theorem getBit_readStep (data : List Nat) (entry : Nat) (seq : List Nat) (si shift : Nat)
    (hshift : shift < 8) (hd : ∀ b ∈ data, b < 256) (hsi : si < seq.length) (p : Nat) :
    getBit (readStep data entry seq si shift (cshl32 4294967295 shift)) p =
      if 8 * si ≤ p ∧ p < 8 * si + 8 then
        (getBit seq p || getBit data (8 * entry + shift + (p - 8 * si)))
      else getBit seq p := by
  have hp8 : p % 8 < 8 := Nat.mod_lt _ (by omega)
  unfold readStep getBit
  by_cases hsh : shift = 0
  · subst hsh
    simp only [ne_eq, not_true_eq_false, if_neg, reduceIte]
    by_cases hj : p / 8 = si
    · rw [hj, byteAt_storeOr_self _ _ _ hsi,
        testBit_read_store_byte0, if_pos (by omega : 8 * si ≤ p ∧ p < 8 * si + 8)]
      have h5 : decide (p % 8 < 8) = true := by simp only [decide_eq_true_eq]; exact hp8
      rw [h5, Bool.true_and,
        show (8 * entry + 0 + (p - 8 * si)) / 8 = entry by omega,
        show (8 * entry + 0 + (p - 8 * si)) % 8 = p % 8 by omega]
    · rw [byteAt_storeOr_ne _ _ _ _ (fun hh => hj hh.symm), if_neg (by omega)]
  · simp only [hsh, ne_eq, not_false_eq_true, if_pos, reduceIte]
    by_cases hj : p / 8 = si
    · rw [hj, byteAt_storeOr_self _ _ _ (by simpa [storeOr] using hsi),
        byteAt_storeOr_self _ _ _ hsi,
        testBit_read_store_byte _ _ _ _ _ hshift (byteAt_lt data hd entry),
        if_pos (by omega : 8 * si ≤ p ∧ p < 8 * si + 8)]
      have h5 : decide (p % 8 < 8) = true := by simp only [decide_eq_true_eq]; exact hp8
      rw [h5, Bool.true_and]
      by_cases hc : shift + p % 8 < 8
      · rw [if_pos hc,
          show (8 * entry + shift + (p - 8 * si)) / 8 = entry by omega,
          show (8 * entry + shift + (p - 8 * si)) % 8 = shift + p % 8 by omega]
      · rw [if_neg hc,
          show (8 * entry + shift + (p - 8 * si)) / 8 = entry + 1 by omega,
          show (8 * entry + shift + (p - 8 * si)) % 8 = shift + p % 8 - 8 by omega]
    · rw [byteAt_storeOr_ne _ _ _ _ (fun hh => hj hh.symm),
        byteAt_storeOr_ne _ _ _ _ (fun hh => hj hh.symm), if_neg (by omega)]

theorem bitset_read_loop_step (data : List Nat) (entry : Nat) (seq : List Nat)
    (si shift mask k : Nat) :
    bitset_read_loop data entry seq si shift mask (k + 8) =
      bitset_read_loop data (entry + 1) (readStep data entry seq si shift mask) (si + 1)
        shift mask k := rfl

theorem bitset_read_loop_base (data : List Nat) (entry : Nat) (seq : List Nat)
    (si shift mask size : Nat) (h : size < 8) :
    bitset_read_loop data entry seq si shift mask size = (seq, entry, si, size) := by
  interval_cases size <;> rfl

theorem bitset_read_loop_spec (size : Nat) :
    ∀ (data : List Nat) (entry : Nat) (seq : List Nat) (si shift : Nat),
      shift < 8 → (∀ b ∈ data, b < 256) →
      si + size / 8 ≤ seq.length →
      (bitset_read_loop data entry seq si shift (cshl32 4294967295 shift) size).1.length =
        seq.length ∧
      (bitset_read_loop data entry seq si shift (cshl32 4294967295 shift) size).2.1 =
        entry + size / 8 ∧
      (bitset_read_loop data entry seq si shift (cshl32 4294967295 shift) size).2.2.1 =
        si + size / 8 ∧
      (bitset_read_loop data entry seq si shift (cshl32 4294967295 shift) size).2.2.2 =
        size % 8 ∧
      ∀ p, getBit (bitset_read_loop data entry seq si shift (cshl32 4294967295 shift) size).1 p =
        if 8 * si ≤ p ∧ p < 8 * si + 8 * (size / 8) then
          (getBit seq p || getBit data (8 * entry + shift + (p - 8 * si)))
        else getBit seq p := by
  induction size using Nat.strong_induction_on with
  | _ size ih =>
    intro data entry seq si shift hshift hd hsl
    by_cases hge : 8 ≤ size
    · obtain ⟨k, rfl⟩ : ∃ k, size = k + 8 := ⟨size - 8, by omega⟩
      rw [bitset_read_loop_step]
      have hsi : si < seq.length := by omega
      have hlen' : (readStep data entry seq si shift (cshl32 4294967295 shift)).length =
          seq.length := length_readStep _ _ _ _ _ _
      obtain ⟨ih1, ih2, ih3, ih4, ih5⟩ := ih k (by omega) data (entry + 1)
        (readStep data entry seq si shift (cshl32 4294967295 shift)) (si + 1) shift hshift hd
        (by rw [hlen']; omega)
      refine ⟨by rw [ih1, hlen'], by rw [ih2]; omega, by rw [ih3]; omega,
        by rw [ih4]; omega, ?_⟩
      intro p
      rw [ih5 p, getBit_readStep data entry seq si shift hshift hd hsi p]
      by_cases hc1 : 8 * (si + 1) ≤ p ∧ p < 8 * (si + 1) + 8 * (k / 8)
      · rw [if_pos hc1, if_pos (show 8 * si ≤ p ∧ p < 8 * si + 8 * ((k + 8) / 8) by omega),
          if_neg (show ¬(8 * si ≤ p ∧ p < 8 * si + 8) by omega),
          show 8 * (entry + 1) + shift + (p - 8 * (si + 1)) =
            8 * entry + shift + (p - 8 * si) by omega]
      · rw [if_neg hc1]
        by_cases hc2 : 8 * si ≤ p ∧ p < 8 * si + 8
        · rw [if_pos hc2,
            if_pos (show 8 * si ≤ p ∧ p < 8 * si + 8 * ((k + 8) / 8) by omega)]
        · rw [if_neg hc2,
            if_neg (show ¬(8 * si ≤ p ∧ p < 8 * si + 8 * ((k + 8) / 8)) by omega)]
    · rw [bitset_read_loop_base _ _ _ _ _ _ _ (by omega)]
      refine ⟨rfl, by simp; omega, by simp; omega, by simp; omega, ?_⟩
      intro p
      rw [if_neg (by omega)]

theorem testBit_read_tail_byte (q e0 shift size M i : Nat) (he0 : e0 < 256)
    (hss : shift + size ≤ 8)
    (hM : ∀ j, j < 8 → M.testBit j = (decide (shift ≤ j) && decide (j < shift + size))) :
    (uchar (q ||| ((e0 &&& M) >>> shift))).testBit i =
      (decide (i < 8) && (q.testBit i || (decide (i < size) && e0.testBit (shift + i)))) := by
  simp only [testBit_uchar, Nat.testBit_or, Nat.testBit_and, Nat.testBit_shiftRight]
  by_cases h1 : i < 8
  · by_cases h2 : shift + i < 8
    · rw [hM (shift + i) h2]
      have h8 : shift ≤ shift + i := by omega
      have h9 : (shift + i < shift + size) ↔ (i < size) := by omega
      simp [h1, h8, h9, Bool.and_comm]
    · have h5 : e0.testBit (shift + i) = false := testBit_byte_high _ _ he0 (by omega)
      have h9 : ¬i < size := by omega
      simp [h1, h5, h9]
  · simp [h1]

theorem testBit_read_tail_byte_big (q e0 e1 shift size i : Nat) (hshift : shift < 8)
    (hgt : 8 < shift + size) (hsize : size < 8) (he0 : e0 < 256) :
    (uchar (uchar (q ||| ((e0 &&& cshl32 4294967295 shift) >>> shift)) |||
        ((e1 &&& not32 ((cshl32 4294967295 shift) >>> (8 - size))) <<< (8 - shift)))).testBit i =
      (decide (i < 8) && (q.testBit i || (decide (i < size) &&
        if shift + i < 8 then e0.testBit (shift + i) else e1.testBit (shift + i - 8)))) := by
  have hM2 : ∀ j, j < 8 → (not32 ((cshl32 4294967295 shift) >>> (8 - size))).testBit j =
      decide (j < shift + size - 8) := by
    intro j hj
    have hj32 : j < 32 := by omega
    rw [testBit_not32, Nat.testBit_shiftRight, testBit_mask32]
    have b1 : 8 - size + j < 32 := by omega
    have b2 : (shift ≤ 8 - size + j) ↔ ¬(j < shift + size - 8) := by omega
    by_cases h3 : j < shift + size - 8
    · have h4 : ¬shift ≤ 8 - size + j := by omega
      simp [hj32, h3, h4, b1]
    · have h4 : shift ≤ 8 - size + j := by omega
      simp [hj32, h3, h4, b1]
  simp only [testBit_uchar, Nat.testBit_or, Nat.testBit_and, Nat.testBit_shiftRight,
    Nat.testBit_shiftLeft, testBit_mask32]
  by_cases h1 : i < 8
  · by_cases h2 : shift + i < 8
    · have h3 : ¬8 - shift ≤ i := by omega
      have h4 : shift + i < 32 := by omega
      have h8 : shift ≤ shift + i := by omega
      have h9 : i < size := by omega
      simp [h1, h2, h3, h4, h8, h9]
    · have h3 : 8 - shift ≤ i := by omega
      have h5 : e0.testBit (shift + i) = false := testBit_byte_high _ _ he0 (by omega)
      have h6 : i - (8 - shift) = shift + i - 8 := by omega
      rw [hM2 (i - (8 - shift)) (by omega)]
      have h9 : (shift + i - 8 < shift + size - 8) ↔ (i < size) := by omega
      simp [h1, h2, h3, h5, h6, h9, Bool.and_comm]
  · simp [h1]

theorem length_bitset_read_tail (data : List Nat) (entry : Nat) (seq : List Nat)
    (si shift mask size : Nat) :
    (bitset_read_tail data entry seq si shift mask size).length = seq.length := by
  simp only [bitset_read_tail]
  split
  · split <;> simp [length_storeOr, storeOr]
  · rfl

theorem getBit_bitset_read_tail (data : List Nat) (entry : Nat) (seq : List Nat)
    (si shift size : Nat) (hshift : shift < 8) (hsize : size < 8)
    (hd : ∀ b ∈ data, b < 256) (hsi : size ≠ 0 → si < seq.length) (p : Nat) :
    getBit (bitset_read_tail data entry seq si shift (cshl32 4294967295 shift) size) p =
      if 8 * si ≤ p ∧ p < 8 * si + size then
        (getBit seq p || getBit data (8 * entry + shift + (p - 8 * si)))
      else getBit seq p := by
  have hp8 : p % 8 < 8 := Nat.mod_lt _ (by omega)
  have h5 : decide (p % 8 < 8) = true := by simp only [decide_eq_true_eq]; exact hp8
  unfold bitset_read_tail
  by_cases hz : size = 0
  · subst hz
    rw [if_neg (by simp), if_neg (by omega)]
  · rw [if_pos hz]
    simp only []
    have hsi' := hsi hz
    by_cases hgt : shift + size > 8
    · rw [if_neg (by omega : ¬shift + size < 8), if_pos hgt]
      unfold getBit
      by_cases hj : p / 8 = si
      · rw [hj, byteAt_storeOr_self _ _ _ (by simpa [storeOr] using hsi'),
          byteAt_storeOr_self _ _ _ hsi',
          testBit_read_tail_byte_big _ _ _ _ size _ hshift (by omega) hsize
            (byteAt_lt data hd entry), h5, Bool.true_and]
        by_cases hc : p % 8 < size
        · have hdt : decide (p % 8 < size) = true := by simp only [decide_eq_true_eq]; exact hc
          rw [hdt, Bool.true_and, if_pos (show 8 * si ≤ p ∧ p < 8 * si + size by omega)]
          by_cases hcc : shift + p % 8 < 8
          · rw [if_pos hcc,
              show (8 * entry + shift + (p - 8 * si)) / 8 = entry by omega,
              show (8 * entry + shift + (p - 8 * si)) % 8 = shift + p % 8 by omega]
          · rw [if_neg hcc,
              show (8 * entry + shift + (p - 8 * si)) / 8 = entry + 1 by omega,
              show (8 * entry + shift + (p - 8 * si)) % 8 = shift + p % 8 - 8 by omega]
        · have hdt : decide (p % 8 < size) = false := by
            simp only [decide_eq_false_iff_not]; exact hc
          rw [hdt, Bool.false_and, Bool.or_false,
            if_neg (show ¬(8 * si ≤ p ∧ p < 8 * si + size) by omega)]
      · rw [byteAt_storeOr_ne _ _ _ _ (fun hh => hj hh.symm),
          byteAt_storeOr_ne _ _ _ _ (fun hh => hj hh.symm), if_neg (by omega)]
    · rw [if_neg hgt]
      have hM : ∀ j, j < 8 →
          ((if shift + size < 8 then cshl32 (not32 (cshl32 4294967295 size)) shift
            else cshl32 4294967295 shift)).testBit j =
          (decide (shift ≤ j) && decide (j < shift + size)) := by
        intro j hj
        have c1 : j < 32 := by omega
        by_cases hlt : shift + size < 8
        · rw [if_pos hlt, testBit_rangeMask _ _ _ (by omega)]
          by_cases h2 : shift ≤ j
          · have c2 : (j - shift < size) ↔ (j < shift + size) := by omega
            simp [c1, h2, c2]
          · simp [c1, h2]
        · rw [if_neg hlt, testBit_mask32]
          have d2 : j < shift + size := by omega
          simp [c1, d2]
      unfold getBit
      by_cases hj : p / 8 = si
      · rw [hj, byteAt_storeOr_self _ _ _ hsi',
          testBit_read_tail_byte _ _ _ size _ _ (byteAt_lt data hd entry) (by omega) hM,
          h5, Bool.true_and]
        by_cases hc : p % 8 < size
        · have hdt : decide (p % 8 < size) = true := by simp only [decide_eq_true_eq]; exact hc
          rw [hdt, Bool.true_and, if_pos (show 8 * si ≤ p ∧ p < 8 * si + size by omega),
            show (8 * entry + shift + (p - 8 * si)) / 8 = entry by omega,
            show (8 * entry + shift + (p - 8 * si)) % 8 = shift + p % 8 by omega]
        · have hdt : decide (p % 8 < size) = false := by
            simp only [decide_eq_false_iff_not]; exact hc
          rw [hdt, Bool.false_and, Bool.or_false,
            if_neg (show ¬(8 * si ≤ p ∧ p < 8 * si + size) by omega)]
      · rw [byteAt_storeOr_ne _ _ _ _ (fun hh => hj hh.symm), if_neg (by omega)]

theorem length_bitset_read_loop_any (size : Nat) :
    ∀ (data : List Nat) (entry : Nat) (seq : List Nat) (si shift mask : Nat),
      (bitset_read_loop data entry seq si shift mask size).1.length = seq.length := by
  induction size using Nat.strong_induction_on with
  | _ size ih =>
    intro data entry seq si shift mask
    by_cases hge : 8 ≤ size
    · obtain ⟨k, rfl⟩ : ∃ k, size = k + 8 := ⟨size - 8, by omega⟩
      rw [bitset_read_loop_step, ih k (by omega), length_readStep]
    · rw [bitset_read_loop_base _ _ _ _ _ _ _ (by omega)]

theorem length_bitset_read (data : List Nat) (index : Nat) (seq : List Nat) (size : Nat) :
    (bitset_read data index seq size).1.length = seq.length := by
  unfold bitset_read
  rw [length_bitset_read_tail, length_bitset_read_loop_any]

theorem bitset_read_snd (data : List Nat) (index : Nat) (seq : List Nat) (size : Nat) :
    (bitset_read data index seq size).2 = size := rfl

/-- Bit-level characterisation of `bitset_read`: bit `p` of the external
buffer after `bitset_read(set, index, seq, count)` is its old value ORed
with bit `index + p` of the bitset when `p < count`, and is its old value
elsewhere — the function never clears a destination bit. -/
theorem getBit_bitset_read (data : List Nat) (index : Nat) (seq : List Nat) (count : Nat)
    (hd : ∀ b ∈ data, b < 256) (hsl : (count + 7) / 8 ≤ seq.length) (p : Nat) :
    getBit (bitset_read data index seq count).1 p =
      (getBit seq p || (decide (p < count) && getBit data (index + p))) := by
  have hshift : index % 8 < 8 := Nat.mod_lt _ (by omega)
  unfold bitset_read bitset_byte_at
  simp only [and7_eq_mod8]
  obtain ⟨l1, l2, l3, l4, l5⟩ :=
    bitset_read_loop_spec count data (index / 8) seq 0 (index % 8) hshift hd (by omega)
  rw [l2, l3, l4]
  rw [getBit_bitset_read_tail _ _ _ _ _ _ hshift (by omega) hd
    (fun hnz => by rw [l1]; omega) p, l5 p]
  by_cases hA : p < 8 * (count / 8)
  · rw [if_neg (show ¬(8 * (0 + count / 8) ≤ p ∧
        p < 8 * (0 + count / 8) + count % 8) by omega),
      if_pos (show 8 * 0 ≤ p ∧ p < 8 * 0 + 8 * (count / 8) by omega),
      show 8 * (index / 8) + index % 8 + (p - 8 * 0) = index + p by omega]
    have hdt : decide (p < count) = true := by
      simp only [decide_eq_true_eq]; omega
    rw [hdt, Bool.true_and]
  · by_cases hB : p < count
    · rw [if_pos (show 8 * (0 + count / 8) ≤ p ∧
          p < 8 * (0 + count / 8) + count % 8 by omega),
        if_neg (show ¬(8 * 0 ≤ p ∧ p < 8 * 0 + 8 * (count / 8)) by omega),
        show 8 * (index / 8 + count / 8) + index % 8 + (p - 8 * (0 + count / 8)) =
          index + p by omega]
      have hdt : decide (p < count) = true := by simp only [decide_eq_true_eq]; exact hB
      rw [hdt, Bool.true_and]
    · rw [if_neg (show ¬(8 * (0 + count / 8) ≤ p ∧
          p < 8 * (0 + count / 8) + count % 8) by omega),
        if_neg (show ¬(8 * 0 ≤ p ∧ p < 8 * 0 + 8 * (count / 8)) by omega)]
      have hdt : decide (p < count) = false := by
        simp only [decide_eq_false_iff_not]; exact hB
      rw [hdt, Bool.false_and, Bool.or_false]

/-! ## Byte-buffer extensionality and the round-trip / frame claims -/

theorem byteAt_eq_getElem (a : List Nat) (j : Nat) (h : j < a.length) :
    byteAt a j = a[j] := by
  simp [byteAt, List.getD_eq_getElem?_getD, List.getElem?_eq_getElem h]

theorem eq_of_getBit_eq (a b : List Nat) (ha : ∀ x ∈ a, x < 256) (hb : ∀ x ∈ b, x < 256)
    (hl : a.length = b.length) (h : ∀ p, getBit a p = getBit b p) : a = b := by
  apply List.ext_getElem hl
  intro j h1 h2
  apply Nat.eq_of_testBit_eq
  intro i
  by_cases hi : i < 8
  · have hp := h (8 * j + i)
    unfold getBit at hp
    rw [show (8 * j + i) / 8 = j by omega, show (8 * j + i) % 8 = i by omega,
      byteAt_eq_getElem a j h1, byteAt_eq_getElem b j h2] at hp
    exact hp
  · rw [testBit_byte_high _ _ (ha _ (List.getElem_mem h1)) (by omega),
      testBit_byte_high _ _ (hb _ (List.getElem_mem h2)) (by omega)]

theorem getBit_replicate_zero (n q : Nat) : getBit (List.replicate n 0) q = false := by
  unfold getBit byteAt
  rcases h : (List.replicate n (0 : Nat))[q / 8]? with _ | b
  · simp [List.getD_eq_getElem?_getD, h, Nat.zero_testBit]
  · have hb : b = 0 := List.eq_of_mem_replicate (List.getElem?_mem h)
    subst hb
    simp [List.getD_eq_getElem?_getD, h, Nat.zero_testBit]

theorem byteAt_take (seq : List Nat) (m j : Nat) (h : j < m) :
    byteAt (seq.take m) j = byteAt seq j := by
  rw [byteAt, byteAt, List.getD_eq_getElem?_getD, List.getD_eq_getElem?_getD,
    List.getElem?_take, if_pos h]

/-- Claim C10: `bitset_read` only ORs the extracted bits into the external
destination buffer and never clears a destination bit: each destination bit
after the call equals its prior value ORed with the extracted bitset bit, so
the result equals the bitset's bits `[index, index + count)` only when the
destination was all-zero beforehand. -/
theorem bitset_read_only_ors (data : List Nat) (index : Nat) (seq : List Nat) (count : Nat)
    (hd : ∀ b ∈ data, b < 256) (hsl : (count + 7) / 8 ≤ seq.length) :
    (∀ p, getBit (bitset_read data index seq count).1 p =
      (getBit seq p || (decide (p < count) && getBit data (index + p)))) ∧
    (∀ p, getBit seq p = true → getBit (bitset_read data index seq count).1 p = true) := by
  refine ⟨fun p => getBit_bitset_read data index seq count hd hsl p, fun p hp => ?_⟩
  rw [getBit_bitset_read data index seq count hd hsl p, hp, Bool.true_or]

/-- Witness for `bitset_read_only_ors` at a concrete input. -/
theorem bitset_read_only_ors_witness :
    (∀ b ∈ [172], b < 256) ∧ (5 + 7) / 8 ≤ ([33] : List Nat).length ∧
    getBit (bitset_read [172] 1 [33] 5).1 0 =
      (getBit [33] 0 || (decide (0 < 5) && getBit [172] (1 + 0))) := by
  exact ⟨by decide, by decide,
    (bitset_read_only_ors [172] 1 [33] 5 (by decide) (by decide)).1 0⟩

/-- Claim C3: writing `count` bits of `seq` at a non-byte-aligned index
(`index % 8 ≠ 0`) with `count` spanning three or more bytes (`count ≥ 17`),
then reading `count` bits back from the same index into a zeroed external
buffer, reproduces the low `count` bits of `seq` bit for bit. -/
theorem bitset_write_then_read (data seq : List Nat) (index count : Nat)
    (hd : ∀ b ∈ data, b < 256) (hal : index % 8 ≠ 0) (hspan : 17 ≤ count)
    (hcap : index + count ≤ 8 * data.length) :
    ∀ q, q < count →
      getBit (bitset_read (bitset_write data index seq count).1 index
        (List.replicate ((count + 7) / 8) 0) count).1 q = getBit seq q := by
  intro q hq
  rw [getBit_bitset_read _ _ _ _ (bytes_bitset_write data index seq count hd)
    (by simp) q, getBit_replicate_zero, Bool.false_or,
    (show decide (q < count) = true by simp only [decide_eq_true_eq]; exact hq),
    Bool.true_and, getBit_bitset_write data index seq count hcap (index + q),
    if_pos (by omega), show index + q - index = q by omega]

/-- Witness for `bitset_write_then_read` at a concrete input. -/
theorem bitset_write_then_read_witness :
    ((∀ b ∈ [0, 0, 0], b < 256) ∧ (3 : Nat) % 8 ≠ 0 ∧ 17 ≤ 17 ∧ 3 + 17 ≤ 8 * 3) ∧
    getBit (bitset_read (bitset_write [0, 0, 0] 3 [179, 15, 1] 17).1 3
      (List.replicate ((17 + 7) / 8) 0) 17).1 5 = getBit [179, 15, 1] 5 := by
  exact ⟨⟨by decide, by decide, by decide, by decide⟩,
    bitset_write_then_read [0, 0, 0] [179, 15, 1] 3 17 (by decide) (by decide) (by decide)
      (by decide) 5 (by decide)⟩

/-- Claim C4: `bitset_write` modifies only the bits in `[index, index + count)`
(bits below `index` and at or beyond `index + count` keep their prior value,
also when `count` is not a multiple of 8), and the result depends only on
the first `ceil(count/8)` bytes of the external source sequence. -/
theorem bitset_write_frame (data seq : List Nat) (index count : Nat)
    (hd : ∀ b ∈ data, b < 256) (hs : ∀ b ∈ seq, b < 256)
    (hcap : index + count ≤ 8 * data.length) :
    (∀ p, p < index ∨ index + count ≤ p →
      getBit (bitset_write data index seq count).1 p = getBit data p) ∧
    bitset_write data index seq count =
      bitset_write data index (seq.take ((count + 7) / 8)) count := by
  constructor
  · intro p hp
    rw [getBit_bitset_write data index seq count hcap p, if_neg (by omega)]
  · have h1 : (bitset_write data index seq count).1 =
        (bitset_write data index (seq.take ((count + 7) / 8)) count).1 := by
      apply eq_of_getBit_eq
      · exact bytes_bitset_write data index seq count hd
      · exact bytes_bitset_write data index _ count hd
      · rw [length_bitset_write, length_bitset_write]
      · intro p
        rw [getBit_bitset_write data index seq count hcap p,
          getBit_bitset_write data index _ count hcap p]
        by_cases hc : index ≤ p ∧ p < index + count
        · rw [if_pos hc, if_pos hc]
          unfold getBit
          rw [byteAt_take seq ((count + 7) / 8) _ (by omega)]
        · rw [if_neg hc, if_neg hc]
    exact Prod.ext h1 rfl

/-- Witness for `bitset_write_frame` at a concrete input. -/
theorem bitset_write_frame_witness :
    ((∀ b ∈ [255, 255], b < 256) ∧ (∀ b ∈ [171, 205], b < 256) ∧ 3 + 9 ≤ 8 * 2) ∧
    getBit (bitset_write [255, 255] 3 [171, 205] 9).1 1 = getBit [255, 255] 1 ∧
    bitset_write [255, 255] 3 [171, 205] 9 =
      bitset_write [255, 255] 3 ([171, 205].take ((9 + 7) / 8)) 9 := by
  have h := bitset_write_frame [255, 255] [171, 205] 3 9 (by decide) (by decide) (by decide)
  exact ⟨⟨by decide, by decide, by decide⟩, h.1 1 (by decide), h.2⟩

/-- Claim C5: reading `count` bits at `index` into a zeroed external buffer
with `bitset_read` and writing that buffer back at the same index with
`bitset_write` leaves every bit of the bitset unchanged (the buffer is
literally equal to the original). -/
theorem bitset_read_then_write (data : List Nat) (index count : Nat)
    (hd : ∀ b ∈ data, b < 256) (hcap : index + count ≤ 8 * data.length) :
    (bitset_write data index
      (bitset_read data index (List.replicate ((count + 7) / 8) 0) count).1 count).1 = data := by
  apply eq_of_getBit_eq
  · exact bytes_bitset_write _ _ _ _ hd
  · exact hd
  · exact length_bitset_write _ _ _ _
  · intro p
    rw [getBit_bitset_write data index _ count hcap p]
    by_cases hc : index ≤ p ∧ p < index + count
    · rw [if_pos hc,
        getBit_bitset_read data index _ count hd (by simp) (p - index),
        getBit_replicate_zero, Bool.false_or,
        (show decide (p - index < count) = true by simp only [decide_eq_true_eq]; omega),
        Bool.true_and, show index + (p - index) = p by omega]
    · rw [if_neg hc]

/-- Witness for `bitset_read_then_write` at a concrete input. -/
theorem bitset_read_then_write_witness :
    ((∀ b ∈ [165, 90], b < 256) ∧ 3 + 9 ≤ 8 * 2) ∧
    (bitset_write [165, 90] 3
      (bitset_read [165, 90] 3 (List.replicate ((9 + 7) / 8) 0) 9).1 9).1 = [165, 90] := by
  exact ⟨⟨by decide, by decide⟩,
    bitset_read_then_write [165, 90] 3 9 (by decide) (by decide)⟩

/-! ## Evaluations exhibiting the code bugs -/

/-- Claim C1: `bitset_rclear` fails to clear a same-byte range that starts at
bit 8 or beyond: with both bytes all-ones, `bitset_rclear(set, 10, 13)`
leaves the buffer unchanged (bit 10 is still set) although it returns 3,
because the same-byte mask is shifted by `begin` instead of `begin % 8`. -/
theorem bitset_rclear_same_byte_high_begin_bug :
    (bitset_rclear [255, 255] 10 13).1 = [255, 255] ∧
    getBit (bitset_rclear [255, 255] 10 13).1 10 = true ∧
    (bitset_rclear [255, 255] 10 13).2 = 3 := by
  decide

/-- Claim C2: when reallocation fails, `bitset_resize` has already
overwritten `set->data` with the NULL result of `realloc`, so the old
buffer `[171]` is discarded (leaked) instead of being kept; `size`,
`capacity` and the returned 0 match the claim, the buffer does not. -/
theorem bitset_resize_failure_discards_buffer :
    bitset_resize ⟨some [171], 8, 8⟩ 4 (fun _ => 0) false = (⟨none, 8, 8⟩, 0) ∧
    (⟨none, 8, 8⟩ : bitset).data ≠ some [171] := by
  exact ⟨rfl, by simp⟩

/-- Claim C6: `bitset_internal_bytes(0) = (((0) - 1) >> 3) + 1` wraps in
`size_t` arithmetic to 2^61 instead of the claimed `ceil(0/8) = 0`. -/
theorem bitset_internal_bytes_zero_wraps :
    bitset_internal_bytes 0 = 2305843009213693952 ∧ bitset_internal_bytes 0 ≠ 0 := by
  constructor
  · norm_num [bitset_internal_bytes, SZ, Nat.shiftRight_eq_div_pow]
  · norm_num [bitset_internal_bytes]

/-- Claim C7: growing a bitset from 10 to 13 bits with `bitset_cresize`
leaves bits 10–12 set (the buffer is unchanged), because the range
`[10, 13)` falls into one byte and `bitset_rclear`'s same-byte mask bug
clears nothing there; the claim requires those bits to be 0. -/
theorem bitset_cresize_growth_bits_not_zeroed :
    bitset_cresize ⟨some [255, 255], 16, 10⟩ 13 (fun _ => 0) true =
      (⟨some [255, 255], 16, 13⟩, -3) ∧
    getBit [255, 255] 10 = true := by
  exact ⟨rfl, by decide⟩

/-- Claim C9 counterexample: immediately after construction by
`bitset_malloc(0, 1)` (with a succeeding allocator) the backing buffer
holds `bitset_internal_bytes 0 = 2^61` bytes, not `ceil(0/8) = 0` bytes,
while the stored `capacity` wraps to 0. -/
theorem bitset_malloc_zero_buffer_length :
    ((bitset_malloc 0 true (fun _ => 0) true).map fun s => ((s.data.getD []).length, s.capacity, s.size)) =
      some (2305843009213693952, 0, 0) ∧ (2305843009213693952 : Nat) ≠ 0 := by
  constructor
  · simp only [bitset_malloc, bitset_internal_alloc, if_pos, Option.map_some]
    norm_num [bitset_internal_bytes, bitset_internal_capacity, SZ,
      Nat.shiftRight_eq_div_pow, Nat.shiftLeft_eq]
  · norm_num
